import Mathlib

/-!
# Verification of the Huffman coding visualizer engine (`src/huffman.js`)

This file gives a shallow embedding of the core engine of the repository —
the `HuffmanNode` / `HuffmanCoding` classes of `src/huffman.js` — and proves
or refutes the frozen claims about it.

Modelling conventions:

* A JavaScript `HuffmanNode` is an inductive tree.  The constructor is only
  ever called as `new HuffmanNode(char, freq)` (a leaf: both children null,
  `char` a one-character string) or `new HuffmanNode(null, freq, left, right)`
  (an internal node: both children non-null, `char` null), so the two
  constructors `leaf` and `node` cover exactly the node shapes the program
  creates.  `isLeaf()` (`!this.left && !this.right`) corresponds to the
  constructor distinction.
* `this.id = Math.random().toString(36).substr(2, 9)` assigns a fresh unique
  identifier at every `new HuffmanNode(...)`.  We model freshness with a
  natural-number counter threaded through construction: every constructor
  call consumes one counter value.  Distinctness of ids is what the program
  relies on; their concrete textual form is irrelevant.
* JavaScript strings used as bit paths are modelled as `List Char`; the
  human-readable step descriptions stay `String`.
* A JavaScript `Map` is modelled as an insertion-ordered association list:
  `set` overwrites in place (`setMap`), lookup finds the unique binding.
* `nodes.sort((a, b) => a.freq - b.freq)` is the ECMAScript stable sort by
  frequency; we model it as a stable insertion sort (`sortByFreq`), which
  produces the same list: sorted by frequency, ties in original order.
-/

/-- A tree node, image of class `HuffmanNode` (src/huffman.js lines 1-13).
`leaf c f i` is `new HuffmanNode(c, f)` with identifier `i`;
`node f l r i` is `new HuffmanNode(null, f, l, r)` with identifier `i`. -/
inductive HNode : Type where
  | leaf (char : Char) (freq : Nat) (id : Nat) : HNode
  | node (freq : Nat) (left : HNode) (right : HNode) (id : Nat) : HNode
  deriving Repr, DecidableEq

namespace HNode

/-- The `char` field: the symbol on a leaf, `null` on an internal node. -/
def char : HNode → Option Char
  | .leaf c _ _ => some c
  | .node _ _ _ _ => none

/-- The `freq` field. -/
def freq : HNode → Nat
  | .leaf _ f _ => f
  | .node f _ _ _ => f

/-- The `id` field. -/
def id : HNode → Nat
  | .leaf _ _ i => i
  | .node _ _ _ i => i

/-- `isLeaf()`: `!this.left && !this.right`. -/
def isLeaf : HNode → Bool
  | .leaf _ _ _ => true
  | .node _ _ _ _ => false

end HNode

/-- One recorded step (the object literal pushed in `addStep`,
src/huffman.js lines 87-93).  `nodes` is `null` when `addStep` is called
without a forest; `highlightNodes` holds the ids of the two just-merged
nodes (`mergedIds` in the spec), or is empty. -/
structure Step where
  description : String
  nodes : Option (List HNode)
  highlightNodes : List Nat
  deriving Repr, DecidableEq

/-- The engine state: the fields of class `HuffmanCoding` that the algorithm
reads or writes (`codes`, `steps`, `currentStep`).  The remaining fields
(`animationSpeed`, `isPlaying`, `animationTimeout`) belong to the
presentation-layer play/pause machinery and are never read by the
construction, navigation or code-derivation operations. -/
structure Engine where
  codes : List (Char × List Char)
  steps : List Step
  currentStep : Nat
  deriving Repr, DecidableEq

/-- A freshly constructed engine (`new HuffmanCoding()`). -/
def Engine.init : Engine := { codes := [], steps := [], currentStep := 0 }

/-- `Map.prototype.set` on the codes map: overwrite the binding in place if
the key exists, else append. -/
def setMap (k : Char) (v : List Char) : List (Char × List Char) → List (Char × List Char)
  | [] => [(k, v)]
  | (k', v') :: rest => if k' = k then (k', v) :: rest else (k', v') :: setMap k v rest

/-- `Map.prototype.get` on the codes map. -/
def lookupMap (s : Char) : List (Char × List Char) → Option (List Char)
  | [] => none
  | (k, v) :: rest => if k = s then some v else lookupMap s rest

/-- One step of the stable insertion sort modelling
`nodes.sort((a, b) => a.freq - b.freq)`: a strictly-smaller element goes in
front, ties and larger elements keep the existing order. -/
def insertByFreq (n : HNode) : List HNode → List HNode
  | [] => [n]
  | m :: ms => if n.freq < m.freq then n :: m :: ms else m :: insertByFreq n ms

/-- Stable sort of the forest by ascending frequency
(`nodes.sort((a, b) => a.freq - b.freq)`, src/huffman.js lines 46 and 54). -/
def sortByFreq : List HNode → List HNode
  | [] => []
  | n :: ns => insertByFreq n (sortByFreq ns)

/-- `cloneNode` (src/huffman.js lines 96-103) viewed on node values: a new
node with the same `char` and `freq`, the `id` copied over
(`clone.id = node.id`), and both children cloned recursively. -/
def cloneNode : HNode → HNode
  | .leaf c f i => .leaf c f i
  | .node f l r i => .node f (cloneNode l) (cloneNode r) i

/-- `addStep(description, nodes, highlightNodes)` (src/huffman.js lines
87-93): push a step whose forest is the clone of each given root
(`nodes.map(n => this.cloneNode(n))`), or `null` when no forest is given. -/
def addStep (steps : List Step) (description : String) (nodes : Option (List HNode))
    (highlightNodes : List Nat) : List Step :=
  steps ++ [{ description := description,
              nodes := nodes.map (fun ns => ns.map cloneNode),
              highlightNodes := highlightNodes }]

/-- `` `${left.char || 'internal'}` ``: a leaf prints its character, an
internal node (char null) prints `internal`. -/
def charOrInternal (n : HNode) : String :=
  match n.char with
  | some c => String.singleton c
  | none => "internal"

/-- The template literal of src/huffman.js line 61. -/
def mergeDesc (a b : HNode) : String :=
  "Combining nodes '" ++ charOrInternal a ++ "' (" ++ toString a.freq ++
    ") and '" ++ charOrInternal b ++ "' (" ++ toString b.freq ++ ")"

/-- Creation of the leaf array (src/huffman.js lines 40-43): one leaf per
`freqMap` entry in insertion order, each consuming a fresh id. -/
def mkLeaves : List (Char × Nat) → Nat → List HNode × Nat
  | [], k => ([], k)
  | (c, f) :: rest, k =>
    let (ns, k') := mkLeaves rest (k + 1)
    (HNode.leaf c f k :: ns, k')

/-- The body of the `while (nodes.length > 1)` loop of `buildTree`
(src/huffman.js lines 52-68), with an explicit structural bound `fuel` on
the number of remaining iterations.  Each iteration re-sorts, shifts the
two lowest-frequency roots `a` and `b`, records a merge step whose forest
starts with a freshly constructed internal node
(`new HuffmanNode(null, a.freq + b.freq, a, b)` built inline in the
`addStep` argument list, consuming id `k`), then constructs a second
internal node (id `k + 1`) and unshifts it into the working forest.  The
two constructor calls on lines 62 and 66 are distinct `new` expressions,
hence distinct ids.  Every iteration shrinks the forest by exactly one, so
running with `fuel = nodes.length` (see `buildLoop`) executes the loop to
completion: the guard `1 < nodes.length` fails strictly before the fuel
can run out. -/
def buildLoopF : Nat → List HNode → List Step → Nat → List HNode × List Step × Nat
  | 0, nodes, steps, k => (nodes, steps, k)
  | fuel + 1, nodes, steps, k =>
    if 1 < nodes.length then
      match sortByFreq nodes with
      | a :: b :: rest =>
        buildLoopF fuel (HNode.node (a.freq + b.freq) a b (k + 1) :: rest)
          (addStep steps (mergeDesc a b)
            (some (HNode.node (a.freq + b.freq) a b k :: rest)) [a.id, b.id])
          (k + 2)
      | other => (other, steps, k)
    else (nodes, steps, k)

/-- The merge loop run to completion (the fuel equals the forest size, an
upper bound on the iteration count, so the fuel never decides the result:
the loop always ends because the guard fails). -/
def buildLoop (nodes : List HNode) (steps : List Step) (k : Nat) :
    List HNode × List Step × Nat :=
  buildLoopF nodes.length nodes steps k

/-- `buildTree(freqMap)` (src/huffman.js lines 35-74) on a well-formed
`Map` argument.  It resets `steps` and `currentStep`, creates the leaves,
sorts, records the initial step over the sorted forest, runs the merge
loop, records the final step with no forest, and returns `nodes[0]`
(`none` when the input was empty, where `nodes[0]` is `undefined`).
The codes map is untouched. -/
def buildTree (freqMap : List (Char × Nat)) (e : Engine) : Engine × Option HNode :=
  let (ns, k) := mkLeaves freqMap 0
  let nodes := sortByFreq ns
  let steps1 := addStep [] "Starting with the following nodes:" (some nodes) []
  let (finalNodes, steps2, _) := buildLoop nodes steps1 k
  let steps3 := addStep steps2 "Huffman tree construction complete!" none []
  ({ e with steps := steps3, currentStep := 0 }, finalNodes.head?)

/-- `buildTree` including its failure mode.  The method body assigns
`this.steps = []` and `this.currentStep = 0` first (lines 36-37); only then
does it read `freqMap.entries()` (line 41), which throws a `TypeError` when
the argument is not a `Map` (modelled as the `none` argument).  The second
component is `none` when the call threw; the first component is the engine
state observable after the call either way. -/
def buildTreeCall (arg : Option (List (Char × Nat))) (e : Engine) :
    Engine × Option (Option HNode) :=
  let e1 : Engine := { e with steps := [], currentStep := 0 }
  match arg with
  | none => (e1, none)
  | some fm =>
    let (e2, root) := buildTree fm e1
    (e2, some root)

/-- `generateCodes(node, path)` (src/huffman.js lines 77-84) acting on the
codes map: at a leaf bind `node.char` to the accumulated path; otherwise
recurse left with `path + '0'` first, then right with `path + '1'` on the
map the left recursion produced. -/
def generateCodes (n : HNode) (path : List Char) (codes : List (Char × List Char)) :
    List (Char × List Char) :=
  match n with
  | .leaf c _ _ => setMap c path codes
  | .node _ l r _ => generateCodes r (path ++ ['1']) (generateCodes l (path ++ ['0']) codes)

/-- `nextStep()` (src/huffman.js lines 111-117).  The JavaScript guard is
`this.currentStep < this.steps.length - 1` over integers; with natural
subtraction the guard agrees: for `steps.length = 0` both `c < -1` and
`c < 0 - 1 = 0` are false for every cursor `c ≥ 0`. -/
def nextStep (e : Engine) : Engine × Bool :=
  if e.currentStep < e.steps.length - 1 then
    ({ e with currentStep := e.currentStep + 1 }, true)
  else (e, false)

/-- `prevStep()` (src/huffman.js lines 120-126). -/
def prevStep (e : Engine) : Engine × Bool :=
  if 0 < e.currentStep then
    ({ e with currentStep := e.currentStep - 1 }, true)
  else (e, false)

/-- `reset()` (src/huffman.js lines 129-137): cursor to 0, codes cleared.
(The remaining statements only touch the presentation-layer animation
fields.)  The step log is not cleared. -/
def reset (e : Engine) : Engine :=
  { e with currentStep := 0, codes := [] }

/-- `n` successive `nextStep()` calls (discarding the returned booleans). -/
def nextN (e : Engine) : Nat → Engine
  | 0 => e
  | n + 1 => nextN (nextStep e).1 n

/-- The `left` field (`null` on leaves). -/
def HNode.left : HNode → Option HNode
  | .leaf _ _ _ => none
  | .node _ l _ _ => some l

/-- The `right` field (`null` on leaves). -/
def HNode.right : HNode → Option HNode
  | .leaf _ _ _ => none
  | .node _ _ r _ => some r

/-- A node with every `id` replaced by `0`: two nodes with equal `eraseIds`
images are the same logical node (same shape, symbols and frequencies),
identified or not by their `id`s. -/
def eraseIds : HNode → HNode
  | .leaf c f _ => .leaf c f 0
  | .node f l r _ => .node f (eraseIds l) (eraseIds r) 0

/-- Total frequency of a forest. -/
def sumFreq (l : List HNode) : Nat := (l.map HNode.freq).sum

/-- The symbols at the leaves of a tree, in depth-first order (the order in
which `generateCodes` visits them). -/
def leafChars : HNode → List Char
  | .leaf c _ _ => [c]
  | .node _ l r _ => leafChars l ++ leafChars r

/-- Following a bit path (a list of `'0'`/`'1'` characters) from a node:
`some s` when the path ends exactly at a leaf carrying symbol `s`.  This is
the reading of a code table entry as a root-to-leaf path. -/
def pathTo : HNode → List Char → Option Char
  | .leaf c _ _, [] => some c
  | .leaf _ _ _, _ :: _ => none
  | .node _ _ _ _, [] => none
  | .node _ l r _, x :: p => if x = '0' then pathTo l p else if x = '1' then pathTo r p else none

/-!
## A heap model for `cloneNode`

The deep-copy claim is about aliasing between JavaScript object instances,
which a pure tree value cannot express.  We therefore model the object
store: a `Cell` is the mutable record `{char, freq, left, right, id}` of a
`HuffmanNode` instance, a `Heap` maps addresses (allocation order) to
cells, and child pointers are addresses.  `new HuffmanNode(...)` allocates
the next address; field assignment (`clone.left = ...`) updates a cell in
place.  `readTree` dereferences a root into the value tree it denotes, with
a fuel bound on pointer-chasing depth.  `cloneNodeH` is `cloneNode`
(src/huffman.js lines 96-103) on this store, line by line. -/

/-- The field record of one `HuffmanNode` instance. -/
structure Cell where
  char : Option Char
  freq : Nat
  left : Option Nat
  right : Option Nat
  id : Nat
  deriving Repr, DecidableEq

/-- The object store: associates addresses to cells; updates shadow. -/
abbrev Heap := List (Nat × Cell)

/-- Dereference an address. -/
def lookupHeap (a : Nat) : Heap → Option Cell
  | [] => none
  | (a', c) :: rest => if a' = a then some c else lookupHeap a rest

/-- Write a cell at an address (allocation or field mutation). -/
def heapSet (h : Heap) (a : Nat) (c : Cell) : Heap := (a, c) :: h

/-- The value tree denoted by a (possibly null) node reference:
`nullv` for the null reference, otherwise the cell's fields with both
children dereferenced recursively. -/
inductive VTree : Type where
  | nullv : VTree
  | mk (char : Option Char) (freq : Nat) (id : Nat) (left right : VTree) : VTree
  deriving Repr, DecidableEq

/-- Read the value tree rooted at a reference, with a fuel bound on depth
(`none` when the fuel runs out or a pointer dangles — neither happens for
the well-formed heaps the program builds). -/
def readTree : Nat → Heap → Option Nat → Option VTree
  | 0, _, _ => none
  | _ + 1, _, none => some VTree.nullv
  | fuel + 1, h, some a =>
    match lookupHeap a h with
    | none => none
    | some c =>
      match readTree fuel h c.left, readTree fuel h c.right with
      | some l, some r => some (VTree.mk c.char c.freq c.id l r)
      | _, _ => none

/-- `cloneNode(node)` (src/huffman.js lines 96-103) on the object store,
threading the allocation counter `k` (the next fresh address):
`if (!node) return null`; otherwise
`const clone = new HuffmanNode(node.char, node.freq)` allocates a cell at
`k` with null children (the fresh random id it receives is immediately
overwritten by `clone.id = node.id`, so the allocated cell carries
`node.id`); then `clone.left = this.cloneNode(node.left)` and
`clone.right = this.cloneNode(node.right)` clone the children and assign
the resulting references into the cell at `k`; finally `clone` (address
`k`) is returned. -/
def cloneNodeH : Nat → Heap → Nat → Option Nat → Option (Heap × Nat × Option Nat)
  | 0, _, _, _ => none
  | _ + 1, h, k, none => some (h, k, none)
  | fuel + 1, h, k, some a =>
    match lookupHeap a h with
    | none => none
    | some c =>
      let h1 := heapSet h k { char := c.char, freq := c.freq, left := none, right := none, id := c.id }
      match cloneNodeH fuel h1 (k + 1) c.left with
      | none => none
      | some (h2, k2, la) =>
        match cloneNodeH fuel h2 k2 c.right with
        | none => none
        | some (h3, k3, ra) =>
          some (heapSet h3 k { char := c.char, freq := c.freq, left := la, right := ra, id := c.id },
                k3, some k)

/-- An optional address stays below the bound `k`. -/
def optLt (o : Option Nat) (k : Nat) : Bool :=
  match o with
  | none => true
  | some a => a < k

/-- Well-formed heap with allocation watermark `k`: every allocated address
and every child pointer is below `k` (the next fresh address). -/
def heapWF (h : Heap) (k : Nat) : Bool :=
  h.all fun p => p.1 < k && optLt p.2.left k && optLt p.2.right k

/-- A sample engine state (a recorded log of three steps, cursor at 0)
used to instantiate the navigation facts on a concrete log. -/
def sampleEngine : Engine :=
  { codes := [],
    steps := [{ description := "a", nodes := none, highlightNodes := [] },
              { description := "b", nodes := none, highlightNodes := [] },
              { description := "c", nodes := none, highlightNodes := [] }],
    currentStep := 0 }

/-! ## Helper lemmas on the sort, clone and leaf-creation operations -/

theorem length_insertByFreq (n : HNode) (l : List HNode) :
    (insertByFreq n l).length = l.length + 1 := by
  induction l with
  | nil => rfl
  | cons m ms ih => simp only [insertByFreq]; split <;> simp [ih]

theorem length_sortByFreq (l : List HNode) : (sortByFreq l).length = l.length := by
  induction l with
  | nil => rfl
  | cons x xs ih => simp [sortByFreq, length_insertByFreq, ih]

theorem perm_insertByFreq (n : HNode) (l : List HNode) :
    List.Perm (insertByFreq n l) (n :: l) := by
  induction l with
  | nil => exact List.Perm.refl _
  | cons m ms ih =>
    simp only [insertByFreq]
    split
    · exact List.Perm.refl _
    · exact (List.Perm.cons m ih).trans (List.Perm.swap n m ms)

theorem perm_sortByFreq (l : List HNode) : List.Perm (sortByFreq l) l := by
  induction l with
  | nil => exact List.Perm.refl _
  | cons x xs ih => exact (perm_insertByFreq x (sortByFreq xs)).trans (List.Perm.cons x ih)

theorem pairwise_insertByFreq (n : HNode) (l : List HNode)
    (hl : l.Pairwise fun a b => a.freq ≤ b.freq) :
    (insertByFreq n l).Pairwise fun a b => a.freq ≤ b.freq := by
  induction l with
  | nil => simp [insertByFreq]
  | cons m ms ih =>
    rcases List.pairwise_cons.mp hl with ⟨hm, hms⟩
    simp only [insertByFreq]
    split
    case isTrue h =>
      refine List.pairwise_cons.mpr ⟨?_, hl⟩
      intro x hx
      rcases List.mem_cons.mp hx with rfl | hx
      · exact le_of_lt h
      · exact le_trans (le_of_lt h) (hm x hx)
    case isFalse h =>
      refine List.pairwise_cons.mpr ⟨?_, ih hms⟩
      intro x hx
      rcases List.mem_cons.mp ((perm_insertByFreq n ms).mem_iff.mp hx) with rfl | hx
      · exact le_of_not_lt h
      · exact hm x hx

theorem pairwise_sortByFreq (l : List HNode) :
    (sortByFreq l).Pairwise fun a b => a.freq ≤ b.freq := by
  induction l with
  | nil => exact List.Pairwise.nil
  | cons x xs ih => exact pairwise_insertByFreq x _ ih

theorem cloneNode_eq (n : HNode) : cloneNode n = n := by
  induction n with
  | leaf c f i => rfl
  | node f l r i ihl ihr => simp [cloneNode, ihl, ihr]

theorem map_cloneNode (ns : List HNode) : ns.map cloneNode = ns := by
  induction ns with
  | nil => rfl
  | cons x xs ih => simp [cloneNode_eq, ih]

theorem sumFreq_sortByFreq (l : List HNode) : sumFreq (sortByFreq l) = sumFreq l :=
  List.Perm.sum_eq ((perm_sortByFreq l).map HNode.freq)

theorem mkLeaves_spec (fm : List (Char × Nat)) : ∀ k : Nat,
    (mkLeaves fm k).1.length = fm.length ∧
    sumFreq (mkLeaves fm k).1 = (fm.map Prod.snd).sum := by
  induction fm with
  | nil => intro k; exact ⟨rfl, rfl⟩
  | cons p rest ih =>
    intro k
    obtain ⟨c, f⟩ := p
    have h := ih (k + 1)
    simp only [mkLeaves, sumFreq, List.map_cons, List.sum_cons, List.length_cons,
      HNode.freq] at h ⊢
    omega

/-! ## Helper lemmas on the merge loop -/

theorem buildLoopF_step (fuel : Nat) (nodes : List HNode) (steps : List Step) (k : Nat)
    (a b : HNode) (rest : List HNode) (hs : sortByFreq nodes = a :: b :: rest) :
    buildLoopF (fuel + 1) nodes steps k =
      buildLoopF fuel (HNode.node (a.freq + b.freq) a b (k + 1) :: rest)
        (addStep steps (mergeDesc a b)
          (some (HNode.node (a.freq + b.freq) a b k :: rest)) [a.id, b.id]) (k + 2) := by
  have hlen : 1 < nodes.length := by
    have h := length_sortByFreq nodes
    rw [hs] at h
    simp only [List.length_cons] at h
    omega
  simp only [buildLoopF, if_pos hlen, hs]

theorem buildLoopF_stop (fuel : Nat) (nodes : List HNode) (steps : List Step) (k : Nat)
    (h : ¬ 1 < nodes.length) : buildLoopF fuel nodes steps k = (nodes, steps, k) := by
  cases fuel with
  | zero => rfl
  | succ f => simp only [buildLoopF, if_neg h]

/-- Running the merge loop on a nonempty forest with fuel equal to the
forest size: the loop terminates with a single root whose frequency is the
total frequency, appending one merge step per iteration; every appended
step highlights exactly two ids and carries a forest; when at least one
merge happens, the last appended step's forest is a single root carrying
the total frequency. -/
theorem buildLoopF_run : ∀ (fuel : Nat) (nodes : List HNode) (steps : List Step) (k : Nat),
    nodes.length = fuel → 1 ≤ fuel →
    ∃ r ms k',
      buildLoopF fuel nodes steps k = ([r], steps ++ ms, k') ∧
      ms.length = fuel - 1 ∧
      r.freq = sumFreq nodes ∧
      (∀ s ∈ ms, s.highlightNodes.length = 2 ∧ s.nodes ≠ none) ∧
      (2 ≤ fuel → ∃ s ns, ms.getLast? = some s ∧ s.nodes = some [ns] ∧ ns.freq = sumFreq nodes) := by
  intro fuel
  induction fuel with
  | zero => intro nodes steps k _ h1; omega
  | succ f ih =>
    intro nodes steps k hlen h1
    by_cases hguard : 1 < nodes.length
    · obtain ⟨a, b, rest, hs⟩ : ∃ a b rest, sortByFreq nodes = a :: b :: rest := by
        have h2 : 2 ≤ (sortByFreq nodes).length := by rw [length_sortByFreq]; omega
        match hm : sortByFreq nodes with
        | x :: y :: zs => exact ⟨x, y, zs, rfl⟩
        | [] => rw [hm] at h2; simp at h2
        | [x] => rw [hm] at h2; simp at h2
      rw [buildLoopF_step f nodes steps k a b rest hs]
      have hsortlen : nodes.length = rest.length + 2 := by
        have h := length_sortByFreq nodes
        rw [hs] at h
        simp only [List.length_cons] at h
        omega
      have hrest_len : (HNode.node (a.freq + b.freq) a b (k + 1) :: rest).length = f := by
        simp only [List.length_cons]
        omega
      have hf1 : 1 ≤ f := by omega
      have hsum : sumFreq (HNode.node (a.freq + b.freq) a b (k + 1) :: rest) = sumFreq nodes := by
        have h := sumFreq_sortByFreq nodes
        rw [hs] at h
        simp only [sumFreq, List.map_cons, List.sum_cons, HNode.freq] at h ⊢
        omega
      obtain ⟨r, ms, k', heq, hms, hr, hall, hlast⟩ :=
        ih (HNode.node (a.freq + b.freq) a b (k + 1) :: rest)
          (addStep steps (mergeDesc a b)
            (some (HNode.node (a.freq + b.freq) a b k :: rest)) [a.id, b.id])
          (k + 2) hrest_len hf1
      refine ⟨r, { description := mergeDesc a b,
                   nodes := some ((HNode.node (a.freq + b.freq) a b k :: rest).map cloneNode),
                   highlightNodes := [a.id, b.id] } :: ms, k', ?_, ?_, ?_, ?_, ?_⟩
      · rw [heq]
        simp [addStep]
      · simp only [List.length_cons, hms]
        rw [Nat.sub_add_cancel hf1, Nat.add_sub_cancel]
      · rw [hr, hsum]
      · intro s hsmem
        rcases List.mem_cons.mp hsmem with rfl | hsmem
        · exact ⟨rfl, by simp⟩
        · exact hall s hsmem
      · intro _
        by_cases hms0 : ms = []
        · subst hms0
          have hf_eq : f = 1 := by
            simp only [List.length_nil] at hms
            omega
          have hrest0 : rest = [] := by
            have : rest.length = 0 := by omega
            exact List.length_eq_zero.mp this
          subst hrest0
          refine ⟨_, cloneNode (HNode.node (a.freq + b.freq) a b k), rfl, ?_, ?_⟩
          · simp [List.map]
          · rw [cloneNode_eq]
            have h := sumFreq_sortByFreq nodes
            rw [hs] at h
            simp only [sumFreq, List.map_cons, List.map_nil, List.sum_cons, List.sum_nil,
              HNode.freq] at h ⊢
            omega
        · have hf2 : 2 ≤ f := by
            have : 1 ≤ ms.length := List.length_pos.mpr hms0
            omega
          obtain ⟨s, ns, hsl, hsn, hnf⟩ := hlast hf2
          refine ⟨s, ns, ?_, hsn, by rw [hnf, hsum]⟩
          rw [List.getLast?_cons, hsl]
          simp [hms0]
    · have hlen1 : nodes.length = 1 := by omega
      obtain ⟨r, hr⟩ : ∃ r, nodes = [r] := by
        match nodes, hlen1 with
        | [r], _ => exact ⟨r, rfl⟩
      have hf0 : f = 0 := by omega
      subst hf0
      refine ⟨r, [], k, ?_, rfl, ?_, by simp, by omega⟩
      · rw [buildLoopF_stop _ _ _ _ hguard, hr]
        simp
      · rw [hr]
        simp [sumFreq]

theorem buildLoop_eq (nodes : List HNode) (steps : List Step) (k : Nat) :
    buildLoop nodes steps k = buildLoopF nodes.length nodes steps k := rfl

theorem addStep_some (steps : List Step) (d : String) (ns : List HNode) (hl : List Nat) :
    addStep steps d (some ns) hl =
      steps ++ [{ description := d, nodes := some (ns.map cloneNode), highlightNodes := hl }] := rfl

theorem addStep_none (steps : List Step) (d : String) (hl : List Nat) :
    addStep steps d none hl =
      steps ++ [{ description := d, nodes := none, highlightNodes := hl }] := rfl

theorem buildTree_steps_eq (fm : List (Char × Nat)) (e : Engine) :
    (buildTree fm e).1.steps =
      addStep (buildLoop (sortByFreq (mkLeaves fm 0).1)
          (addStep [] "Starting with the following nodes:"
            (some (sortByFreq (mkLeaves fm 0).1)) [])
          (mkLeaves fm 0).2).2.1
        "Huffman tree construction complete!" none [] := rfl

theorem buildTree_root_eq (fm : List (Char × Nat)) (e : Engine) :
    (buildTree fm e).2 =
      (buildLoop (sortByFreq (mkLeaves fm 0).1)
        (addStep [] "Starting with the following nodes:"
          (some (sortByFreq (mkLeaves fm 0).1)) [])
        (mkLeaves fm 0).2).1.head? := rfl

theorem buildTree_codes_eq (fm : List (Char × Nat)) (e : Engine) :
    (buildTree fm e).1.codes = e.codes := rfl

theorem buildTree_cursor_eq (fm : List (Char × Nat)) (e : Engine) :
    (buildTree fm e).1.currentStep = 0 := rfl

/-- The overall shape of the recorded step log on a nonempty input: one
initial step over the sorted leaf forest, one merge step per loop
iteration, and a final step with no forest; the last merge step (when the
loop ran) carries a one-root forest holding the total input frequency. -/
theorem buildTree_steps_shape (fm : List (Char × Nat)) (e : Engine) (h1 : 1 ≤ fm.length) :
    ∃ ms, (buildTree fm e).1.steps =
        { description := "Starting with the following nodes:",
          nodes := some ((sortByFreq (mkLeaves fm 0).1).map cloneNode),
          highlightNodes := [] } ::
          (ms ++ [{ description := "Huffman tree construction complete!",
                    nodes := none, highlightNodes := [] }]) ∧
      ms.length = fm.length - 1 ∧
      (∀ s ∈ ms, s.highlightNodes.length = 2 ∧ s.nodes ≠ none) ∧
      (2 ≤ fm.length →
        ∃ s ns, ms.getLast? = some s ∧ s.nodes = some [ns] ∧
          ns.freq = (fm.map Prod.snd).sum) := by
  have hm := mkLeaves_spec fm 0
  have hnlen : (sortByFreq (mkLeaves fm 0).1).length = fm.length := by
    rw [length_sortByFreq, hm.1]
  obtain ⟨r, ms, k', heq, hms, hr, hall, hlast⟩ :=
    buildLoopF_run (sortByFreq (mkLeaves fm 0).1).length (sortByFreq (mkLeaves fm 0).1)
      (addStep [] "Starting with the following nodes:"
        (some (sortByFreq (mkLeaves fm 0).1)) [])
      (mkLeaves fm 0).2 rfl (by omega)
  have hsum : sumFreq (sortByFreq (mkLeaves fm 0).1) = (fm.map Prod.snd).sum := by
    rw [sumFreq_sortByFreq, hm.2]
  refine ⟨ms, ?_, by rw [hms, hnlen], hall, ?_⟩
  · rw [buildTree_steps_eq, buildLoop_eq, heq, addStep_none, addStep_some]
    simp
  · intro h2
    obtain ⟨s, ns, hsl, hsn, hnf⟩ := hlast (by omega)
    exact ⟨s, ns, hsl, hsn, by rw [hnf, hsum]⟩

theorem getLast?_cons_of_ne_nil {α : Type} (a : α) (l : List α) (h : l ≠ []) :
    (a :: l).getLast? = l.getLast? := by
  cases l with
  | nil => exact absurd rfl h
  | cons b bs => exact List.getLast?_cons_cons

/-- C1: for a forest of at least two roots, each iteration of the merge
loop removes the two lowest-frequency roots `a` and `b` (`a.freq ≤ b.freq`,
and both below every remaining root), continues with one internal node of
frequency `a.freq + b.freq` in their place, and records a step whose
`mergedIds` are exactly `[a.id, b.id]`; and in the full `buildTree` log the
initial and final bookkeeping steps carry an empty `mergedIds` list. -/
theorem c1_merge_removes_two_lowest :
    (∀ (nodes : List HNode) (steps : List Step) (k : Nat), 1 < nodes.length →
      ∃ a b rest, sortByFreq nodes = a :: b :: rest ∧
        List.Perm nodes (a :: b :: rest) ∧
        a.freq ≤ b.freq ∧
        (∀ x ∈ rest, a.freq ≤ x.freq ∧ b.freq ≤ x.freq) ∧
        buildLoop nodes steps k =
          buildLoop (HNode.node (a.freq + b.freq) a b (k + 1) :: rest)
            (steps ++ [{ description := mergeDesc a b,
                         nodes := some ((HNode.node (a.freq + b.freq) a b k :: rest).map cloneNode),
                         highlightNodes := [a.id, b.id] }]) (k + 2)) ∧
    (∀ (fm : List (Char × Nat)) (e : Engine), 2 ≤ fm.length →
      ∃ s0 sl, (buildTree fm e).1.steps.head? = some s0 ∧
        (buildTree fm e).1.steps.getLast? = some sl ∧
        s0.highlightNodes = [] ∧ sl.highlightNodes = []) := by
  constructor
  · intro nodes steps k hlen
    obtain ⟨a, b, rest, hs⟩ : ∃ a b rest, sortByFreq nodes = a :: b :: rest := by
      have h2 : 2 ≤ (sortByFreq nodes).length := by rw [length_sortByFreq]; omega
      match hm : sortByFreq nodes with
      | x :: y :: zs => exact ⟨x, y, zs, rfl⟩
      | [] => rw [hm] at h2; simp at h2
      | [x] => rw [hm] at h2; simp at h2
    have hpw := pairwise_sortByFreq nodes
    rw [hs] at hpw
    rcases List.pairwise_cons.mp hpw with ⟨ha, hpw2⟩
    rcases List.pairwise_cons.mp hpw2 with ⟨hb, -⟩
    have hperm : List.Perm nodes (a :: b :: rest) := by
      have hp := perm_sortByFreq nodes
      rw [hs] at hp
      exact hp.symm
    refine ⟨a, b, rest, hs, hperm, ha b (List.mem_cons_self b rest), ?_, ?_⟩
    · intro x hx
      exact ⟨ha x (List.mem_cons_of_mem b hx), hb x hx⟩
    · have hlen2 : nodes.length = rest.length + 2 := by
        have h := length_sortByFreq nodes
        rw [hs] at h
        simp only [List.length_cons] at h
        omega
      rw [buildLoop_eq, buildLoop_eq]
      simp only [List.length_cons, hlen2]
      rw [buildLoopF_step (rest.length + 1) nodes steps k a b rest hs, addStep_some]
  · intro fm e h2
    obtain ⟨ms, hshape, -, -, -⟩ := buildTree_steps_shape fm e (by omega)
    refine ⟨{ description := "Starting with the following nodes:",
              nodes := some ((sortByFreq (mkLeaves fm 0).1).map cloneNode),
              highlightNodes := [] },
            { description := "Huffman tree construction complete!",
              nodes := none, highlightNodes := [] }, ?_, ?_, rfl, rfl⟩
    · rw [hshape]
      rfl
    · rw [hshape, ← List.cons_append]
      exact List.getLast?_concat _

/-- C2: for every valid frequency table with n ≥ 2 distinct symbols, the
log recorded by `buildTree` is one initial step, then n − 1 merge steps
(each highlighting two merged ids), then one final bookkeeping step, for
n + 1 steps in total. -/
theorem c2_step_count (fm : List (Char × Nat)) (e : Engine)
    (hkeys : (fm.map Prod.fst).Nodup) (h2 : 2 ≤ fm.length) :
    ∃ s0 ms sf, (buildTree fm e).1.steps = s0 :: (ms ++ [sf]) ∧
      ms.length = fm.length - 1 ∧
      (∀ s ∈ ms, s.highlightNodes.length = 2) ∧
      (buildTree fm e).1.steps.length = fm.length + 1 := by
  obtain ⟨ms, hshape, hlen, hall, -⟩ := buildTree_steps_shape fm e (by omega)
  refine ⟨_, ms, _, hshape, hlen, fun s hs => (hall s hs).1, ?_⟩
  rw [hshape]
  simp only [List.length_cons, List.length_append, List.length_nil, hlen]
  omega

/-- C4 counterexample: on the table {A:1, B:2} the last recorded step's
forest is null (`addStep` was called without a forest), not a one-root
list as the claim states. -/
theorem c4_last_step_has_no_forest :
    ((buildTree [('A', 1), ('B', 2)] Engine.init).1.steps.getLast?).map Step.nodes
      = some none ∧
    ¬ ∃ s ns, (buildTree [('A', 1), ('B', 2)] Engine.init).1.steps.getLast? = some s ∧
        s.nodes = some ns := by
  refine ⟨rfl, ?_⟩
  rintro ⟨s, ns, hs, hn⟩
  have h : (buildTree [('A', 1), ('B', 2)] Engine.init).1.steps.getLast? =
      some { description := "Huffman tree construction complete!", nodes := none,
             highlightNodes := [] } := rfl
  rw [h] at hs
  injection hs with hs
  rw [← hs] at hn
  exact Option.noConfusion hn

/-- C4 amended: the last recorded step has no forest snapshot (its `nodes`
field is null); the last step that does carry a forest — the final merge
step, directly before it — has exactly one root, whose frequency equals
the sum of all input frequencies. -/
theorem c4_final_root_amended (fm : List (Char × Nat)) (e : Engine) (h2 : 2 ≤ fm.length) :
    ∃ s root,
      ((buildTree fm e).1.steps.getLast?).map Step.nodes = some none ∧
      (buildTree fm e).1.steps.dropLast.getLast? = some s ∧
      s.nodes = some [root] ∧
      root.freq = (fm.map Prod.snd).sum := by
  obtain ⟨ms, hshape, -, -, hlast⟩ := buildTree_steps_shape fm e (by omega)
  obtain ⟨s, root, hsl, hsn, hrf⟩ := hlast h2
  have hms0 : ms ≠ [] := by
    intro h
    rw [h] at hsl
    exact Option.noConfusion hsl
  refine ⟨s, root, ?_, ?_, hsn, hrf⟩
  · rw [hshape, ← List.cons_append, List.getLast?_concat]
    rfl
  · rw [hshape, ← List.cons_append, List.dropLast_concat,
      getLast?_cons_of_ne_nil _ _ hms0]
    exact hsl

/-- C7 counterexample: a failing `buildTree` call (the argument is not a
`Map`, so `freqMap.entries()` throws) does not leave the previously
recorded step log as it was: the method already replaced it by the empty
log before reading its argument. -/
theorem c7_failing_call_clears_log :
    (buildTreeCall none
      { codes := [],
        steps := [{ description := "old step", nodes := none, highlightNodes := [] }],
        currentStep := 0 }).2 = none ∧
    (buildTreeCall none
      { codes := [],
        steps := [{ description := "old step", nodes := none, highlightNodes := [] }],
        currentStep := 0 }).1.steps = [] ∧
    (buildTreeCall none
      { codes := [],
        steps := [{ description := "old step", nodes := none, highlightNodes := [] }],
        currentStep := 0 }).1.steps ≠
      [{ description := "old step", nodes := none, highlightNodes := [] }] :=
  ⟨rfl, rfl, fun h => List.noConfusion h⟩

/-- C7 amended: `buildTree` clears the step log and cursor on entry, so a
failing call leaves the empty log, not the previous one; a succeeding call
replaces the log with one computed solely from the new input (the prior
engine state does not influence it). -/
theorem c7_log_replaced_not_preserved : ∀ (e : Engine) (fm : List (Char × Nat)),
    ((buildTreeCall none e).2 = none ∧
      (buildTreeCall none e).1 = { e with steps := [], currentStep := 0 }) ∧
    ((buildTreeCall (some fm) e).1.steps = (buildTreeCall (some fm) Engine.init).1.steps ∧
      (buildTreeCall (some fm) e).1.currentStep = 0) :=
  fun e fm => ⟨⟨rfl, rfl⟩, rfl, rfl⟩

theorem nextN_progress : ∀ (n : Nat) (e : Engine), e.currentStep + n ≤ e.steps.length - 1 →
    (nextN e n).currentStep = e.currentStep + n ∧ (nextN e n).steps = e.steps := by
  intro n
  induction n with
  | zero => intro e _; exact ⟨rfl, rfl⟩
  | succ m ih =>
    intro e h
    have hlt : e.currentStep < e.steps.length - 1 := by omega
    have hstep : (nextStep e).1 = { e with currentStep := e.currentStep + 1 } := by
      simp [nextStep, if_pos hlt]
    show (nextN (nextStep e).1 m).currentStep = _ ∧ (nextN (nextStep e).1 m).steps = _
    rw [hstep]
    obtain ⟨h1, h2⟩ := ih { e with currentStep := e.currentStep + 1 } (by simp; omega)
    constructor
    · rw [h1]; simp; omega
    · rw [h2]

/-- C8: with a valid cursor, `nextStep` advances the cursor by one and
returns `true` exactly when the cursor is not at the last index (otherwise
it returns `false` and the state is unchanged); `prevStep` decrements the
cursor by one and returns `true` exactly when the cursor is not at index 0
(otherwise it returns `false` and the cursor stays at 0); and from cursor
0, `steps.length - 1` repetitions of `nextStep` reach the last index and
the next call returns `false`. -/
theorem c8_navigation (e : Engine) (hv : e.currentStep < e.steps.length) :
    ((nextStep e).2 = true ↔ e.currentStep ≠ e.steps.length - 1) ∧
    ((nextStep e).2 = true →
      (nextStep e).1.currentStep = e.currentStep + 1 ∧ (nextStep e).1.steps = e.steps) ∧
    ((nextStep e).2 = false → (nextStep e).1 = e) ∧
    ((prevStep e).2 = true ↔ e.currentStep ≠ 0) ∧
    ((prevStep e).2 = true →
      (prevStep e).1.currentStep = e.currentStep - 1 ∧ (prevStep e).1.steps = e.steps) ∧
    ((prevStep e).2 = false → (prevStep e).1 = e ∧ e.currentStep = 0) ∧
    (e.currentStep = 0 →
      (nextN e (e.steps.length - 1)).currentStep = e.steps.length - 1 ∧
      (nextStep (nextN e (e.steps.length - 1))).2 = false) := by
  refine ⟨?_, ?_, ?_, ?_, ?_, ?_, ?_⟩
  · by_cases hn : e.currentStep < e.steps.length - 1
    · simp only [nextStep, if_pos hn]
      simp only [true_iff]
      omega
    · simp only [nextStep, if_neg hn]
      constructor
      · intro h; exact absurd h (by simp)
      · intro h; omega
  · intro h
    by_cases hn : e.currentStep < e.steps.length - 1
    · simp [nextStep, if_pos hn]
    · simp only [nextStep, if_neg hn] at h
      exact absurd h (by simp)
  · intro h
    by_cases hn : e.currentStep < e.steps.length - 1
    · simp only [nextStep, if_pos hn] at h
      exact absurd h (by simp)
    · simp [nextStep, if_neg hn]
  · by_cases hp : 0 < e.currentStep
    · simp only [prevStep, if_pos hp]
      simp only [true_iff]
      omega
    · simp only [prevStep, if_neg hp]
      constructor
      · intro h; exact absurd h (by simp)
      · intro h; omega
  · intro h
    by_cases hp : 0 < e.currentStep
    · simp [prevStep, if_pos hp]
    · simp only [prevStep, if_neg hp] at h
      exact absurd h (by simp)
  · intro h
    by_cases hp : 0 < e.currentStep
    · simp only [prevStep, if_pos hp] at h
      exact absurd h (by simp)
    · refine ⟨by simp [prevStep, if_neg hp], by omega⟩
  · intro h0
    obtain ⟨h1, h2⟩ := nextN_progress (e.steps.length - 1) e (by omega)
    have hcur : (nextN e (e.steps.length - 1)).currentStep = e.steps.length - 1 := by
      rw [h1, h0]
      omega
    refine ⟨hcur, ?_⟩
    have hguard : ¬ (nextN e (e.steps.length - 1)).currentStep <
        (nextN e (e.steps.length - 1)).steps.length - 1 := by
      rw [hcur, h2]
      omega
    simp [nextStep, if_neg hguard]

/-- C6 (code bug): for the single-symbol table {X:7}, `buildTree` returns
the leaf itself, and `generateCodes` on that root binds 'X' to the empty
string, not to the one-character string "0" required by the claim. -/
theorem c6_single_symbol_empty_code :
    (buildTree [('X', 7)] Engine.init).2 = some (HNode.leaf 'X' 7 0) ∧
    generateCodes (HNode.leaf 'X' 7 0) [] [] = [('X', ([] : List Char))] ∧
    lookupMap 'X' (generateCodes (HNode.leaf 'X' 7 0) [] []) = some [] ∧
    lookupMap 'X' (generateCodes (HNode.leaf 'X' 7 0) [] []) ≠ some ['0'] := by
  refine ⟨rfl, rfl, rfl, ?_⟩
  intro h
  injection h with h
  exact List.noConfusion h

/-- C9 (code bug): on the table {A:1, B:2, C:4}, the internal node shown in
the first merge step's recorded forest carries id 3, while the same logical
node (identical symbols, frequencies and shape, as witnessed by the
`eraseIds` projections) appears in the second merge step's recorded forest
carrying id 4: each merge constructs two distinct node instances (lines 62
and 66 of src/huffman.js), so the merged node cannot be correlated across
steps by id. -/
theorem c9_merged_node_id_changes :
    (((buildTree [('A', 1), ('B', 2), ('C', 4)] Engine.init).1.steps.get? 1).bind
        Step.nodes).bind List.head? =
      some (HNode.node 3 (HNode.leaf 'A' 1 0) (HNode.leaf 'B' 2 1) 3) ∧
    ((((buildTree [('A', 1), ('B', 2), ('C', 4)] Engine.init).1.steps.get? 2).bind
        Step.nodes).bind List.head?).bind HNode.left =
      some (HNode.node 3 (HNode.leaf 'A' 1 0) (HNode.leaf 'B' 2 1) 4) ∧
    eraseIds (HNode.node 3 (HNode.leaf 'A' 1 0) (HNode.leaf 'B' 2 1) 3) =
      eraseIds (HNode.node 3 (HNode.leaf 'A' 1 0) (HNode.leaf 'B' 2 1) 4) ∧
    (HNode.node 3 (HNode.leaf 'A' 1 0) (HNode.leaf 'B' 2 1) 3).id ≠
      (HNode.node 3 (HNode.leaf 'A' 1 0) (HNode.leaf 'B' 2 1) 4).id := by
  refine ⟨rfl, rfl, rfl, ?_⟩
  decide

theorem lookupMap_setMap (s c : Char) (p : List Char) (m : List (Char × List Char)) :
    lookupMap s (setMap c p m) = if c = s then some p else lookupMap s m := by
  induction m with
  | nil => simp [setMap, lookupMap]
  | cons kv rest ih =>
    obtain ⟨k, v⟩ := kv
    simp only [setMap]
    by_cases hkc : k = c
    · subst hkc
      simp only [if_pos rfl, lookupMap]
      by_cases hks : k = s
      · simp [hks]
      · simp [hks]
    · simp only [if_neg hkc, lookupMap, ih]
      by_cases hks : k = s
      · subst hks
        have hcs : ¬ c = k := fun hcontra => hkc hcontra.symm
        simp [hcs]
      · simp [hks]

theorem generateCodes_not_leafChar (t : HNode) : ∀ (p : List Char)
    (m : List (Char × List Char)) (s : Char), s ∉ leafChars t →
    lookupMap s (generateCodes t p m) = lookupMap s m := by
  induction t with
  | leaf c f i =>
    intro p m s hs
    simp only [leafChars, List.mem_singleton] at hs
    simp only [generateCodes, lookupMap_setMap]
    rw [if_neg (fun hcontra => hs hcontra.symm)]
  | node f l r i ihl ihr =>
    intro p m s hs
    simp only [leafChars, List.mem_append] at hs
    push_neg at hs
    simp only [generateCodes]
    rw [ihr _ _ _ hs.2, ihl _ _ _ hs.1]

/-- C10: `buildTree` leaves the shared codes map untouched;
`generateCodes` accumulates into the given codes map and leaves the
binding of every symbol that is not a leaf of the tree unchanged (so
entries of a previously processed table survive a later derivation for a
tree that lacks them); and `reset()` empties the codes map. -/
theorem c10_codes_accumulate :
    (∀ (fm : List (Char × Nat)) (e : Engine), (buildTree fm e).1.codes = e.codes) ∧
    (∀ (t : HNode) (p : List Char) (m : List (Char × List Char)) (s : Char),
      s ∉ leafChars t → lookupMap s (generateCodes t p m) = lookupMap s m) ∧
    (∀ e : Engine, (reset e).codes = []) :=
  ⟨fun fm e => buildTree_codes_eq fm e, generateCodes_not_leafChar, fun _ => rfl⟩

theorem generateCodes_lookup (t : HNode) : ∀ (p : List Char) (m : List (Char × List Char))
    (s : Char) (c : List Char),
    lookupMap s (generateCodes t p m) = some c →
    (∃ q, c = p ++ q ∧ pathTo t q = some s) ∨ lookupMap s m = some c := by
  induction t with
  | leaf ch f i =>
    intro p m s c h
    simp only [generateCodes, lookupMap_setMap] at h
    by_cases hcs : ch = s
    · subst hcs
      rw [if_pos rfl] at h
      injection h with h
      exact Or.inl ⟨[], by rw [← h]; simp, rfl⟩
    · rw [if_neg hcs] at h
      exact Or.inr h
  | node f l r i ihl ihr =>
    intro p m s c h
    simp only [generateCodes] at h
    rcases ihr _ _ _ _ h with ⟨q, hc, hq⟩ | h2
    · refine Or.inl ⟨'1' :: q, ?_, ?_⟩
      · rw [hc]; simp
      · simp only [pathTo]
        simpa using hq
    · rcases ihl _ _ _ _ h2 with ⟨q, hc, hq⟩ | h3
      · refine Or.inl ⟨'0' :: q, ?_, ?_⟩
        · rw [hc]; simp
        · simp only [pathTo]
          simpa using hq
      · exact Or.inr h3

theorem pathTo_extend : ∀ (q : List Char) (t : HNode) (s u : Char) (ex : List Char),
    pathTo t q = some s → pathTo t (q ++ ex) = some u → ex = [] ∧ s = u := by
  intro q
  induction q with
  | nil =>
    intro t s u ex h1 h2
    cases t with
    | leaf c f i =>
      simp only [pathTo] at h1
      injection h1 with h1
      subst h1
      cases ex with
      | nil =>
        simp only [List.nil_append, pathTo] at h2
        injection h2 with h2
        exact ⟨rfl, h2⟩
      | cons x xs =>
        simp only [List.nil_append, pathTo] at h2
        exact Option.noConfusion h2
    | node f l r i =>
      simp only [pathTo] at h1
      exact Option.noConfusion h1
  | cons x xs ih =>
    intro t s u ex h1 h2
    cases t with
    | leaf c f i =>
      simp only [pathTo] at h1
      exact Option.noConfusion h1
    | node f l r i =>
      simp only [pathTo] at h1
      simp only [List.cons_append, pathTo] at h2
      by_cases hx0 : x = '0'
      · rw [if_pos hx0] at h1 h2
        exact ih l s u ex h1 h2
      · rw [if_neg hx0] at h1 h2
        by_cases hx1 : x = '1'
        · rw [if_pos hx1] at h1 h2
          exact ih r s u ex h1 h2
        · rw [if_neg hx1] at h1
          exact Option.noConfusion h1

/-- C5: the code table derived by `generateCodes` (into a fresh map) from
the root that `buildTree` returns is prefix-free: for two distinct
symbols, the code of one is never a prefix (proper or not) of the code of
the other. -/
theorem c5_prefix_free (fm : List (Char × Nat)) (e : Engine) (root : HNode)
    (hn : 2 ≤ fm.length) (hroot : (buildTree fm e).2 = some root)
    (s t : Char) (cs ct : List Char) (hst : s ≠ t)
    (hs : lookupMap s (generateCodes root [] []) = some cs)
    (ht : lookupMap t (generateCodes root [] []) = some ct) :
    ¬ List.IsPrefix cs ct := by
  intro hpre
  rcases generateCodes_lookup root [] [] s cs hs with ⟨q, hq, hqs⟩ | hfalse
  · rcases generateCodes_lookup root [] [] t ct ht with ⟨q', hq', hqt⟩ | hfalse
    · simp only [List.nil_append] at hq hq'
      subst hq
      subst hq'
      obtain ⟨ex, hex⟩ := hpre
      rw [← hex] at hqt
      obtain ⟨-, hsu⟩ := pathTo_extend cs root s t ex hqs hqt
      exact hst hsu
    · exact Option.noConfusion hfalse
  · exact Option.noConfusion hfalse

/-! ## Helper lemmas for the heap model of `cloneNode` -/

theorem lookupHeap_heapSet (a m : Nat) (c : Cell) (h : Heap) :
    lookupHeap a (heapSet h m c) = if m = a then some c else lookupHeap a h := rfl

theorem optLt_mono (o : Option Nat) (k k2 : Nat) (hk : k ≤ k2) (h : optLt o k = true) :
    optLt o k2 = true := by
  cases o with
  | none => rfl
  | some m =>
    simp only [optLt, decide_eq_true_eq] at h ⊢
    omega

theorem heapWF_mono (h : Heap) (k k2 : Nat) (hk : k ≤ k2) (hwf : heapWF h k = true) :
    heapWF h k2 = true := by
  induction h with
  | nil => rfl
  | cons p rest ih =>
    simp only [heapWF, List.all_cons, Bool.and_eq_true, decide_eq_true_eq] at hwf ⊢
    obtain ⟨⟨⟨h1, h2⟩, h3⟩, h4⟩ := hwf
    exact ⟨⟨⟨by omega, optLt_mono _ _ _ hk h2⟩, optLt_mono _ _ _ hk h3⟩, ih h4⟩

theorem heapWF_set (h : Heap) (k klim : Nat) (c : Cell) (hwf : heapWF h klim = true)
    (hk : k < klim) (hl : optLt c.left klim = true) (hr : optLt c.right klim = true) :
    heapWF (heapSet h k c) klim = true := by
  simp only [heapWF, heapSet, List.all_cons, Bool.and_eq_true, decide_eq_true_eq]
  exact ⟨⟨⟨hk, hl⟩, hr⟩, by simpa [heapWF] using hwf⟩

theorem heapWF_lookup (h : Heap) (k : Nat) (hwf : heapWF h k = true) : ∀ (a : Nat) (c : Cell),
    lookupHeap a h = some c →
    a < k ∧ optLt c.left k = true ∧ optLt c.right k = true := by
  induction h with
  | nil => intro a c hl; exact Option.noConfusion hl
  | cons p rest ih =>
    intro a c hl
    obtain ⟨a', c'⟩ := p
    simp only [heapWF, List.all_cons, Bool.and_eq_true, decide_eq_true_eq] at hwf
    obtain ⟨⟨⟨h1, h2⟩, h3⟩, h4⟩ := hwf
    simp only [lookupHeap] at hl
    by_cases haa : a' = a
    · subst haa
      rw [if_pos rfl] at hl
      injection hl with hl
      subst hl
      exact ⟨h1, h2, h3⟩
    · rw [if_neg haa] at hl
      exact ih h4 a c hl

theorem readTree_congr_below : ∀ (fuel : Nat) (h h₂ : Heap) (k : Nat) (a : Option Nat),
    heapWF h k = true →
    optLt a k = true →
    (∀ m, m < k → lookupHeap m h₂ = lookupHeap m h) →
    readTree fuel h₂ a = readTree fuel h a := by
  intro fuel
  induction fuel with
  | zero => intro h h₂ k a _ _ _; rfl
  | succ f ih =>
    intro h h₂ k a hwf ha hagree
    cases a with
    | none => rfl
    | some addr =>
      have haddr : addr < k := by
        simpa only [optLt, decide_eq_true_eq] using ha
      simp only [readTree]
      rw [hagree addr haddr]
      cases hl : lookupHeap addr h with
      | none => rfl
      | some c =>
        obtain ⟨-, hcl, hcr⟩ := heapWF_lookup h k hwf addr c hl
        dsimp only
        rw [ih h h₂ k c.left hwf hcl hagree, ih h h₂ k c.right hwf hcr hagree]

/-- Full specification of the heap clone: the clone leaves every
pre-existing address untouched, allocates only fresh addresses (all in
`[k, k')`), preserves heap well-formedness, and the returned reference
denotes exactly the value tree of the original — moreover that denotation
depends only on the freshly allocated range, so it is stable under any
write outside `[k, k')`. -/
theorem cloneNodeH_spec : ∀ (fuel : Nat) (h : Heap) (k : Nat) (a : Option Nat)
    (h' : Heap) (k' : Nat) (a' : Option Nat),
    heapWF h k = true →
    optLt a k = true →
    cloneNodeH fuel h k a = some (h', k', a') →
    k ≤ k' ∧
    (∀ m, m < k → lookupHeap m h' = lookupHeap m h) ∧
    heapWF h' k' = true ∧
    (∀ m, a' = some m → k ≤ m ∧ m < k') ∧
    ∃ t, readTree fuel h a = some t ∧
      ∀ h₂, (∀ m, k ≤ m → m < k' → lookupHeap m h₂ = lookupHeap m h') →
        readTree fuel h₂ a' = some t := by
  intro fuel
  induction fuel with
  | zero => intro h k a h' k' a' _ _ hcl; exact Option.noConfusion hcl
  | succ f ih =>
    intro h k a h' k' a' hwf ha hcl
    cases a with
    | none =>
      simp only [cloneNodeH, Option.some.injEq, Prod.mk.injEq] at hcl
      obtain ⟨rfl, rfl, rfl⟩ := hcl
      refine ⟨le_refl k, fun m _ => rfl, hwf, ?_, VTree.nullv, rfl, fun h₂ _ => rfl⟩
      intro m hm
      exact Option.noConfusion hm
    | some addr =>
      simp only [cloneNodeH] at hcl
      cases hl : lookupHeap addr h with
      | none =>
        rw [hl] at hcl
        exact Option.noConfusion hcl
      | some c =>
        rw [hl] at hcl
        dsimp only at hcl
        obtain ⟨haddr, hcleft, hcright⟩ := heapWF_lookup h k hwf addr c hl
        cases hcll : cloneNodeH f
            (heapSet h k { char := c.char, freq := c.freq, left := none, right := none,
                           id := c.id })
            (k + 1) c.left with
        | none =>
          rw [hcll] at hcl
          exact Option.noConfusion hcl
        | some res1 =>
          obtain ⟨h2, k2, la⟩ := res1
          rw [hcll] at hcl
          dsimp only at hcl
          cases hclr : cloneNodeH f h2 k2 c.right with
          | none =>
            rw [hclr] at hcl
            exact Option.noConfusion hcl
          | some res2 =>
            obtain ⟨h3, k3, ra⟩ := res2
            rw [hclr] at hcl
            dsimp only at hcl
            simp only [Option.some.injEq, Prod.mk.injEq] at hcl
            obtain ⟨rfl, rfl, rfl⟩ := hcl
            have hwf1 : heapWF
                (heapSet h k { char := c.char, freq := c.freq, left := none, right := none,
                               id := c.id }) (k + 1) = true :=
              heapWF_set h k (k + 1) _ (heapWF_mono h k (k + 1) (by omega) hwf)
                (by omega) rfl rfl
            obtain ⟨hk12, hbelow1, hwf2, hrange_la, tl, hread_l, hany_l⟩ :=
              ih _ (k + 1) c.left h2 k2 la hwf1
                (optLt_mono c.left k (k + 1) (by omega) hcleft) hcll
            obtain ⟨hk23, hbelow2, hwf3, hrange_ra, tr, hread_r, hany_r⟩ :=
              ih h2 k2 c.right h3 k3 ra hwf2
                (optLt_mono c.right k k2 (by omega) hcright) hclr
            have hagree1 : ∀ m, m < k → lookupHeap m (heapSet h k { char := c.char, freq := c.freq, left := none, right := none, id := c.id }) = lookupHeap m h := by
              intro m hm
              rw [lookupHeap_heapSet, if_neg (by omega)]
            have hcongr_l := readTree_congr_below f h _ k c.left hwf hcleft hagree1
            rw [hcongr_l] at hread_l
            have hagree2 : ∀ m, m < k → lookupHeap m h2 = lookupHeap m h := by
              intro m hm
              rw [hbelow1 m (by omega), hagree1 m hm]
            have hcongr_r := readTree_congr_below f h h2 k c.right hwf hcright hagree2
            rw [hcongr_r] at hread_r
            have hla3 : optLt la k3 = true := by
              cases la with
              | none => rfl
              | some m =>
                obtain ⟨hm1, hm2⟩ := hrange_la m rfl
                simp only [optLt, decide_eq_true_eq]
                omega
            have hra3 : optLt ra k3 = true := by
              cases ra with
              | none => rfl
              | some m =>
                obtain ⟨hm1, hm2⟩ := hrange_ra m rfl
                simp only [optLt, decide_eq_true_eq]
                omega
            refine ⟨by omega, ?_, ?_, ?_,
              VTree.mk c.char c.freq c.id tl tr, ?_, ?_⟩
            · intro m hm
              rw [lookupHeap_heapSet, if_neg (by omega), hbelow2 m (by omega),
                hbelow1 m (by omega), hagree1 m hm]
            · exact heapWF_set h3 k k3 _ hwf3 (by omega) hla3 hra3
            · intro m hm
              injection hm with hm
              subst hm
              omega
            · simp only [readTree]
              rw [hl]
              dsimp only
              rw [hread_l, hread_r]
            · intro h₂ hag
              have hk_in : lookupHeap k h₂ =
                  some { char := c.char, freq := c.freq, left := la, right := ra,
                         id := c.id } := by
                rw [hag k (le_refl k) (by omega), lookupHeap_heapSet, if_pos rfl]
              have hrl : readTree f h₂ la = some tl := by
                apply hany_l h₂
                intro m hm1 hm2
                rw [hag m (by omega) (by omega), lookupHeap_heapSet, if_neg (by omega),
                  hbelow2 m (by omega)]
              have hrr : readTree f h₂ ra = some tr := by
                apply hany_r h₂
                intro m hm1 hm2
                rw [hag m (by omega) hm2, lookupHeap_heapSet, if_neg (by omega)]
              simp only [readTree]
              rw [hk_in]
              dsimp only
              rw [hrl, hrr]

/-- C3: a recorded snapshot is a deep, independent copy.  Cloning a node
reference over the object heap yields a reference that denotes exactly the
value tree of the original — identical `id`, symbol and frequency at every
node, with recursively copied children — built entirely from freshly
allocated instances (addresses in `[k, k')`); consequently any later write
to an instance outside that range — every pre-existing node (address
`< k`), in particular the whole live forest, and every instance allocated
later (address `≥ k'`), e.g. while recording the next step — leaves the
snapshot's denotation unchanged. -/
theorem c3_snapshot_deep_copy (fuel : Nat) (h h' : Heap) (k k' : Nat) (a a' : Option Nat)
    (hwf : heapWF h k = true) (ha : optLt a k = true)
    (hclone : cloneNodeH fuel h k a = some (h', k', a')) :
    ∃ t, readTree fuel h a = some t ∧
      readTree fuel h' a' = some t ∧
      (∀ m, a' = some m → k ≤ m ∧ m < k') ∧
      (∀ (m : Nat) (c : Cell), m < k ∨ k' ≤ m →
        readTree fuel (heapSet h' m c) a' = some t) := by
  obtain ⟨hk, hbelow, hwf', hrange, t, hread, hany⟩ :=
    cloneNodeH_spec fuel h k a h' k' a' hwf ha hclone
  refine ⟨t, hread, hany h' (fun m _ _ => rfl), hrange, ?_⟩
  intro m c hm
  apply hany
  intro m2 hm1 hm2
  rw [lookupHeap_heapSet, if_neg (by omega)]

/-! ## Witnesses: the theorems above applied at concrete inputs -/

theorem c1_witness :
    (∃ a b rest, sortByFreq [HNode.leaf 'A' 1 0, HNode.leaf 'B' 2 1] = a :: b :: rest ∧
      List.Perm [HNode.leaf 'A' 1 0, HNode.leaf 'B' 2 1] (a :: b :: rest) ∧
      a.freq ≤ b.freq ∧
      (∀ x ∈ rest, a.freq ≤ x.freq ∧ b.freq ≤ x.freq) ∧
      buildLoop [HNode.leaf 'A' 1 0, HNode.leaf 'B' 2 1] [] 2 =
        buildLoop (HNode.node (a.freq + b.freq) a b (2 + 1) :: rest)
          ([] ++ [{ description := mergeDesc a b,
                    nodes := some ((HNode.node (a.freq + b.freq) a b 2 :: rest).map cloneNode),
                    highlightNodes := [a.id, b.id] }]) (2 + 2)) ∧
    (∃ s0 sl, (buildTree [('A', 1), ('B', 2)] Engine.init).1.steps.head? = some s0 ∧
      (buildTree [('A', 1), ('B', 2)] Engine.init).1.steps.getLast? = some sl ∧
      s0.highlightNodes = [] ∧ sl.highlightNodes = []) :=
  ⟨c1_merge_removes_two_lowest.1 [HNode.leaf 'A' 1 0, HNode.leaf 'B' 2 1] [] 2 (by decide),
   c1_merge_removes_two_lowest.2 [('A', 1), ('B', 2)] Engine.init (by decide)⟩

theorem c2_witness :
    ∃ s0 ms sf, (buildTree [('A', 1), ('B', 2)] Engine.init).1.steps = s0 :: (ms ++ [sf]) ∧
      ms.length = ([('A', 1), ('B', 2)] : List (Char × Nat)).length - 1 ∧
      (∀ s ∈ ms, s.highlightNodes.length = 2) ∧
      (buildTree [('A', 1), ('B', 2)] Engine.init).1.steps.length =
        ([('A', 1), ('B', 2)] : List (Char × Nat)).length + 1 :=
  c2_step_count [('A', 1), ('B', 2)] Engine.init (by decide) (by decide)

theorem c3_witness :
    ∃ t, readTree 2
        [(0, ({ char := some 'A', freq := 1, left := none, right := none, id := 0 } : Cell))]
        (some 0) = some t ∧
      readTree 2
        [(1, ({ char := some 'A', freq := 1, left := none, right := none, id := 0 } : Cell)),
         (1, { char := some 'A', freq := 1, left := none, right := none, id := 0 }),
         (0, { char := some 'A', freq := 1, left := none, right := none, id := 0 })]
        (some 1) = some t ∧
      (∀ m, (some 1 : Option Nat) = some m → 1 ≤ m ∧ m < 2) ∧
      (∀ (m : Nat) (c : Cell), m < 1 ∨ 2 ≤ m →
        readTree 2 (heapSet
          [(1, ({ char := some 'A', freq := 1, left := none, right := none, id := 0 } : Cell)),
           (1, { char := some 'A', freq := 1, left := none, right := none, id := 0 }),
           (0, { char := some 'A', freq := 1, left := none, right := none, id := 0 })]
          m c) (some 1) = some t) :=
  c3_snapshot_deep_copy 2
    [(0, { char := some 'A', freq := 1, left := none, right := none, id := 0 })]
    [(1, { char := some 'A', freq := 1, left := none, right := none, id := 0 }),
     (1, { char := some 'A', freq := 1, left := none, right := none, id := 0 }),
     (0, { char := some 'A', freq := 1, left := none, right := none, id := 0 })]
    1 2 (some 0) (some 1) (by decide) (by decide) rfl

theorem c4_witness :
    ∃ s root,
      ((buildTree [('A', 1), ('B', 2)] Engine.init).1.steps.getLast?).map Step.nodes
        = some none ∧
      (buildTree [('A', 1), ('B', 2)] Engine.init).1.steps.dropLast.getLast? = some s ∧
      s.nodes = some [root] ∧
      root.freq = (([('A', 1), ('B', 2)] : List (Char × Nat)).map Prod.snd).sum :=
  c4_final_root_amended [('A', 1), ('B', 2)] Engine.init (by decide)

theorem c5_witness : ¬ List.IsPrefix ['0'] ['1'] :=
  c5_prefix_free [('A', 1), ('B', 2)] Engine.init
    (HNode.node 3 (HNode.leaf 'A' 1 0) (HNode.leaf 'B' 2 1) 3)
    (by decide) rfl 'A' 'B' ['0'] ['1'] (by decide) rfl rfl

theorem c8_witness :
    ((nextStep sampleEngine).2 = true ↔
      sampleEngine.currentStep ≠ sampleEngine.steps.length - 1) ∧
    ((nextStep sampleEngine).2 = true →
      (nextStep sampleEngine).1.currentStep = sampleEngine.currentStep + 1 ∧
      (nextStep sampleEngine).1.steps = sampleEngine.steps) ∧
    ((nextStep sampleEngine).2 = false → (nextStep sampleEngine).1 = sampleEngine) ∧
    ((prevStep sampleEngine).2 = true ↔ sampleEngine.currentStep ≠ 0) ∧
    ((prevStep sampleEngine).2 = true →
      (prevStep sampleEngine).1.currentStep = sampleEngine.currentStep - 1 ∧
      (prevStep sampleEngine).1.steps = sampleEngine.steps) ∧
    ((prevStep sampleEngine).2 = false →
      (prevStep sampleEngine).1 = sampleEngine ∧ sampleEngine.currentStep = 0) ∧
    (sampleEngine.currentStep = 0 →
      (nextN sampleEngine (sampleEngine.steps.length - 1)).currentStep =
        sampleEngine.steps.length - 1 ∧
      (nextStep (nextN sampleEngine (sampleEngine.steps.length - 1))).2 = false) :=
  c8_navigation sampleEngine (by decide)

theorem c10_witness :
    lookupMap 'A' (generateCodes (HNode.leaf 'C' 1 0) [] [('A', ['0'])]) =
      lookupMap 'A' [('A', ['0'])] :=
  c10_codes_accumulate.2.1 (HNode.leaf 'C' 1 0) [] [('A', ['0'])] 'A' (by decide)
